import Mathlib

/-!
Verification of the HMR decision core (packages/vite/src/node/server/hmr.ts).

The development shallowly embeds the four operations of the file —
`lexAcceptedHmrDeps`, `propagateUpdate`, `handlePrunedModules` and
`handleHMRUpdate` — as executable Lean functions over an explicit module
graph state, and proves the spec's claims about them.
-/

/-! ## AcceptedDepsLexer (lexAcceptedHmrDeps, hmr.ts lines 175-279) -/

/-- Lexer states of `lexAcceptedHmrDeps` (the `const enum LexerState`). -/
inductive LexerState
  | inCall
  | inSingleQuoteString
  | inDoubleQuoteString
  | inTemplateString
  | inArray
deriving DecidableEq

def singleQuoteC : Char := Char.ofNat 39

def doubleQuoteC : Char := Char.ofNat 34

def backtickC : Char := Char.ofNat 96

def leftBraceC : Char := Char.ofNat 123

def dollarC : Char := Char.ofNat 36

/-- The JS regular expression `\s` character class, used by the lexer's
whitespace test. -/
def isJsWhitespace (c : Char) : Bool :=
  let n := c.toNat
  (decide (9 ≤ n) && decide (n ≤ 13)) || decide (n = 32) || decide (n = 160) ||
  decide (n = 0x1680) || (decide (0x2000 ≤ n) && decide (n ≤ 0x200a)) ||
  decide (n = 0x2028) || decide (n = 0x2029) || decide (n = 0x202f) ||
  decide (n = 0x205f) || decide (n = 0x3000) || decide (n = 0xfeff)

/-- The `RollupError` raised by `error(pos)` in hmr.ts: a message plus the
source offset stored on `err.pos`. -/
structure LexError where
  message : String
  pos : Nat
deriving DecidableEq

def lexErrorMessage : String :=
  "import.meta.accept() can only accept string literals or an Array of string literals."

/-- `error(pos)` from hmr.ts lines 272-279. -/
def lexError (pos : Nat) : LexError := ⟨lexErrorMessage, pos⟩

/-- `urls.add(currentDep)`: JS `Set<string>` insertion (insertion-ordered,
deduplicating). -/
def addUrl (urls : List String) (s : String) : List String :=
  if urls.contains s then urls else urls ++ [s]

/-- The character loop of `lexAcceptedHmrDeps` (hmr.ts lines 200-268).
The remaining input is `c :: rest`, `i` is the current index in the whole
source, `state`/`prevState`/`currentDep`/`urls` are the loop variables.
Errors thrown by `error(i)` are modelled by `Except.error`. -/
def lexLoop : List Char → Nat → LexerState → LexerState → String → List String →
    Except LexError (Bool × List String)
  | [], _, _, _, _, urls => .ok (false, urls)
  | c :: rest, i, state, prevState, currentDep, urls =>
    match state with
    | .inCall | .inArray =>
      if c = singleQuoteC then
        lexLoop rest (i + 1) .inSingleQuoteString state currentDep urls
      else if c = doubleQuoteC then
        lexLoop rest (i + 1) .inDoubleQuoteString state currentDep urls
      else if c = backtickC then
        lexLoop rest (i + 1) .inTemplateString state currentDep urls
      else if isJsWhitespace c then
        lexLoop rest (i + 1) state prevState currentDep urls
      else if state = .inCall then
        if c = '[' then
          lexLoop rest (i + 1) .inArray prevState currentDep urls
        else
          .ok (true, urls)
      else if state = .inArray then
        if c = ']' then
          .ok (false, urls)
        else if c = ',' then
          lexLoop rest (i + 1) state prevState currentDep urls
        else
          .error (lexError i)
      else
        lexLoop rest (i + 1) state prevState currentDep urls
    | .inSingleQuoteString =>
      if c = singleQuoteC then
        lexLoop rest (i + 1) prevState prevState "" (addUrl urls currentDep)
      else
        lexLoop rest (i + 1) state prevState (currentDep.push c) urls
    | .inDoubleQuoteString =>
      if c = doubleQuoteC then
        lexLoop rest (i + 1) prevState prevState currentDep (addUrl urls currentDep)
      else
        lexLoop rest (i + 1) state prevState (currentDep.push c) urls
    | .inTemplateString =>
      if c = backtickC then
        lexLoop rest (i + 1) prevState prevState "" (addUrl urls currentDep)
      else if c = dollarC ∧ rest.head? = some leftBraceC then
        .error (lexError i)
      else
        lexLoop rest (i + 1) state prevState (currentDep.push c) urls

/-- `lexAcceptedHmrDeps(code, start, urls)` (hmr.ts lines 190-270): scan the
source from offset `start` in state `inCall`. -/
def lexAcceptedHmrDeps (code : List Char) (start : Nat) (urls : List String) :
    Except LexError (Bool × List String) :=
  lexLoop (code.drop start) start .inCall .inCall "" urls

/-- C3: the claim says every string state resets the accumulation buffer on
its closing quote. The double-quote branch (hmr.ts line 246-252) commits the
text but does NOT reset `currentDep`, unlike the single-quote and template
branches: lexing the array form with double quotes leaks the previous
dependency text into the second one, and the claim's own example with two
bare double-quoted strings even self-accepts after the first string because
the comma is seen in the call state. The single-quote form behaves as
claimed, isolating the slip to the double-quote branch. -/
theorem lexer_doubleQuote_missing_reset :
  lexAcceptedHmrDeps ("([\x22./a.js\x22,\x22./b.js\x22])".toList) 1 [] =
      .ok (false, ["./a.js", "./a.js./b.js"])
  ∧ lexAcceptedHmrDeps ("(\x22./a.js\x22,\x22./b.js\x22)".toList) 1 [] =
      .ok (true, ["./a.js"])
  ∧ lexAcceptedHmrDeps ("([\x27./a.js\x27,\x27./b.js\x27])".toList) 1 [] =
      .ok (false, ["./a.js", "./b.js"]) := by
  refine ⟨?_, ?_, ?_⟩ <;> rfl

/-- C8: inside a template string, a dollar immediately followed by an opening
brace raises the parse error carrying the current offset; inside the array
state any character that is not a quote, a closing bracket, a comma or
whitespace raises the parse error carrying the current offset; the error
propagates to the entry point, as in the concrete run on a template
interpolation where the error position is the dollar's offset 2. -/
theorem lexer_error_positions :
  (∀ rest i prevState currentDep urls,
      lexLoop (dollarC :: leftBraceC :: rest) i .inTemplateString prevState currentDep urls =
        .error ⟨lexErrorMessage, i⟩)
  ∧ (∀ c rest i prevState currentDep urls, c ≠ singleQuoteC → c ≠ doubleQuoteC →
      c ≠ backtickC → isJsWhitespace c = false → c ≠ ']' → c ≠ ',' →
      lexLoop (c :: rest) i .inArray prevState currentDep urls = .error ⟨lexErrorMessage, i⟩)
  ∧ lexAcceptedHmrDeps ("(\x60$\x7bx\x7d\x60)".toList) 1 [] = .error ⟨lexErrorMessage, 2⟩ := by
  refine ⟨fun rest i prevState currentDep urls => rfl, ?_, rfl⟩
  intro c rest i prevState currentDep urls h1 h2 h3 h4 h5 h6
  simp only [lexLoop, h1, h2, h3, h4, h5, h6, if_false, if_neg, ite_false]
  simp [h1, h2, h3, h4, h5, h6, lexError]

/-- Witness for C8: the template-interpolation error at offset 7 and the
disallowed array character error at offset 4, at concrete inputs. -/
theorem lexer_error_positions_witness :
  lexLoop (dollarC :: leftBraceC :: []) 7 .inTemplateString .inCall "" [] =
      .error ⟨lexErrorMessage, 7⟩
  ∧ lexLoop ('x' :: []) 4 .inArray .inCall "" [] = .error ⟨lexErrorMessage, 4⟩ :=
  ⟨lexer_error_positions.1 [] 7 .inCall "" [],
   lexer_error_positions.2.1 'x' [] 4 .inCall "" [] (by decide) (by decide) (by decide)
     (by decide) (by decide) (by decide)⟩

/-! ## Module graph model (ModuleNode fields read or written by hmr.ts) -/

/-- The fields of a `ModuleNode` that hmr.ts reads or writes. `importers`
and `acceptedHmrDeps` are JS `Set<ModuleNode>` values, modelled as
insertion-ordered lists of node ids; `transformResult` is an opaque cached
value or `none` (JS `null`). -/
structure ModuleNodeData where
  url : String
  file : String
  type : String
  isSelfAccepting : Bool
  importers : List Nat
  acceptedHmrDeps : List Nat
  lastHMRTimestamp : Int
  transformResult : Option Nat
deriving DecidableEq

/-- The module graph: a finite node count and the per-node data store.
Node ids are the naturals below `numNodes`. -/
structure ModuleGraph where
  numNodes : Nat
  node : Nat → ModuleNodeData

/-- A boundary record `{boundary, acceptedVia}`: each `boundaries.add` in
hmr.ts creates a fresh object, so the JS `Set` never deduplicates; the
collection is modelled as an insertion-ordered list of id pairs. -/
abbrev Boundary := Nat × Nat

/-- One iteration of `invalidateChain`'s `forEach` body (hmr.ts lines
151-154): stamp the timestamp and clear the cached transform result. -/
def setInvalidated (g : ModuleGraph) (m : Nat) (ts : Int) : ModuleGraph :=
  { g with node := fun j => if j = m then
      { g.node j with lastHMRTimestamp := ts, transformResult := none }
    else g.node j }

/-- `invalidateChain(chain, timestamp)` (hmr.ts lines 150-155). -/
def invalidateChain (g : ModuleGraph) (chain : List Nat) (ts : Int) : ModuleGraph :=
  chain.foldl (fun acc m => setInvalidated acc m ts) g

/-- The `for (const importer of node.importers)` loop of `propagateUpdate`
(hmr.ts lines 130-146), abstracted over the recursive call `recur`.
Returns `none` only when a recursive call does (fuel exhaustion in the
embedding). -/
def importersStep
    (recur : ModuleGraph → Nat → List Boundary → List Nat →
      Option (Bool × List Boundary × ModuleGraph))
    (ts : Int) (node : Nat) (chain : List Nat) :
    List Nat → ModuleGraph → List Boundary → Option (Bool × List Boundary × ModuleGraph)
  | [], g, boundaries => some (false, boundaries, g)
  | imp :: rest, g, boundaries =>
    if ((g.node imp).acceptedHmrDeps).contains node then
      importersStep recur ts node chain rest (invalidateChain g (chain ++ [imp]) ts)
        (boundaries ++ [(imp, node)])
    else if chain.contains imp then
      importersStep recur ts node chain rest g boundaries
    else
      match recur g imp boundaries (chain ++ [imp]) with
      | none => none
      | some (true, bs, g2) => some (true, bs, g2)
      | some (false, bs, g2) => importersStep recur ts node chain rest g2 bs

/-- `propagateUpdate(node, timestamp, boundaries, currentChain)` (hmr.ts
lines 105-148), with explicit recursion fuel: `none` means the fuel ran out
(shown below to be impossible with fuel `numNodes + 1` on well-formed
graphs). The result is `(hasDeadEnd, boundaries, graph)`. -/
def propagateUpdate : Nat → ModuleGraph → Int → Nat → List Boundary → List Nat →
    Option (Bool × List Boundary × ModuleGraph)
  | 0, _, _, _, _, _ => none
  | fuel + 1, g, ts, node, boundaries, chain =>
    if (g.node node).isSelfAccepting then
      some (false, boundaries ++ [(node, node)], invalidateChain g chain ts)
    else if (g.node node).importers = [] then
      some (true, boundaries, g)
    else
      importersStep (fun g2 imp bs sub => propagateUpdate fuel g2 ts imp bs sub)
        ts node chain ((g.node node).importers) g boundaries

/-- Membership of a node in a chain never stamped: `invalidateChain` leaves
nodes outside the chain untouched. -/
theorem invalidateChain_not_mem (ts : Int) :
    ∀ (chain : List Nat) (g : ModuleGraph) (i : Nat), i ∉ chain →
      (invalidateChain g chain ts).node i = g.node i := by
  intro chain
  induction chain with
  | nil => intro g i _; rfl
  | cons c cs ih =>
    intro g i hi
    have hic : i ≠ c := fun h => hi (h ▸ List.mem_cons_self c cs)
    have hics : i ∉ cs := fun h => hi (List.mem_cons_of_mem c h)
    have : invalidateChain g (c :: cs) ts = invalidateChain (setInvalidated g c ts) cs ts := rfl
    rw [this, ih (setInvalidated g c ts) i hics]
    simp [setInvalidated, hic]

/-- Every node in the chain ends up stamped with the timestamp and with a
cleared transform result. -/
theorem invalidateChain_mem (ts : Int) :
    ∀ (chain : List Nat) (g : ModuleGraph) (i : Nat), i ∈ chain →
      ((invalidateChain g chain ts).node i).lastHMRTimestamp = ts ∧
      ((invalidateChain g chain ts).node i).transformResult = none := by
  intro chain
  induction chain with
  | nil => intro g i hi; cases hi
  | cons c cs ih =>
    intro g i hi
    have hstep : invalidateChain g (c :: cs) ts = invalidateChain (setInvalidated g c ts) cs ts := rfl
    by_cases hics : i ∈ cs
    · rw [hstep]; exact ih (setInvalidated g c ts) i hics
    · have hic : i = c := by
        rcases List.mem_cons.mp hi with h | h
        · exact h
        · exact absurd h hics
      rw [hstep, invalidateChain_not_mem ts cs (setInvalidated g c ts) i hics]
      simp [setInvalidated, hic]

/-- C5: on a self-accepting node, `propagateUpdate` returns `false`, appends
exactly the boundary pair `(node, node)`, replaces the graph by the chain
invalidation (which stamps the timestamp and clears `transformResult` on
every node of the current chain), and never inspects the node's importers. -/
theorem propagateUpdate_selfAccepting (fuel : Nat) (g : ModuleGraph) (ts : Int)
    (node : Nat) (bs : List Boundary) (chain : List Nat)
    (h : (g.node node).isSelfAccepting = true) :
    propagateUpdate (fuel + 1) g ts node bs chain =
        some (false, bs ++ [(node, node)], invalidateChain g chain ts)
    ∧ ∀ i ∈ chain, ((invalidateChain g chain ts).node i).lastHMRTimestamp = ts
        ∧ ((invalidateChain g chain ts).node i).transformResult = none := by
  constructor
  · simp [propagateUpdate, h]
  · intro i hi
    exact invalidateChain_mem ts chain g i hi

/-! ## Static fields: everything hmr.ts never writes -/

/-- Two node records agree on every field except `lastHMRTimestamp` and
`transformResult`. -/
def sameStatic (a b : ModuleNodeData) : Prop :=
  a.url = b.url ∧ a.file = b.file ∧ a.type = b.type ∧
  a.isSelfAccepting = b.isSelfAccepting ∧ a.importers = b.importers ∧
  a.acceptedHmrDeps = b.acceptedHmrDeps

theorem sameStatic_refl (a : ModuleNodeData) : sameStatic a a :=
  ⟨rfl, rfl, rfl, rfl, rfl, rfl⟩

theorem sameStatic_trans {a b c : ModuleNodeData} (h1 : sameStatic a b)
    (h2 : sameStatic b c) : sameStatic a c :=
  ⟨h1.1.trans h2.1, h1.2.1.trans h2.2.1, h1.2.2.1.trans h2.2.2.1,
   h1.2.2.2.1.trans h2.2.2.2.1, h1.2.2.2.2.1.trans h2.2.2.2.2.1,
   h1.2.2.2.2.2.trans h2.2.2.2.2.2⟩

theorem sameStatic_symm {a b : ModuleNodeData} (h : sameStatic a b) : sameStatic b a :=
  ⟨h.1.symm, h.2.1.symm, h.2.2.1.symm, h.2.2.2.1.symm, h.2.2.2.2.1.symm, h.2.2.2.2.2.symm⟩

/-- Two graphs have the same node count and pointwise the same static
fields: they differ at most in `lastHMRTimestamp` and `transformResult`. -/
def staticEq (g h : ModuleGraph) : Prop :=
  g.numNodes = h.numNodes ∧ ∀ i, sameStatic (g.node i) (h.node i)

theorem staticEq_refl (g : ModuleGraph) : staticEq g g :=
  ⟨rfl, fun i => sameStatic_refl (g.node i)⟩

theorem staticEq_trans {g h k : ModuleGraph} (h1 : staticEq g h) (h2 : staticEq h k) :
    staticEq g k :=
  ⟨h1.1.trans h2.1, fun i => sameStatic_trans (h1.2 i) (h2.2 i)⟩

theorem staticEq_symm {g h : ModuleGraph} (h1 : staticEq g h) : staticEq h g :=
  ⟨h1.1.symm, fun i => sameStatic_symm (h1.2 i)⟩

theorem setInvalidated_static (g : ModuleGraph) (m : Nat) (ts : Int) :
    staticEq g (setInvalidated g m ts) := by
  refine ⟨rfl, fun i => ?_⟩
  by_cases h : i = m <;> simp [setInvalidated, h, sameStatic]

theorem invalidateChain_static (ts : Int) :
    ∀ (chain : List Nat) (g : ModuleGraph), staticEq g (invalidateChain g chain ts) := by
  intro chain
  induction chain with
  | nil => intro g; exact staticEq_refl g
  | cons c cs ih =>
    intro g
    exact staticEq_trans (setInvalidated_static g c ts) (ih (setInvalidated g c ts))

theorem importersStep_static
    (recur : ModuleGraph → Nat → List Boundary → List Nat →
      Option (Bool × List Boundary × ModuleGraph))
    (ts : Int) (node : Nat) (chain : List Nat)
    (Hs : ∀ g imp bs sub r, recur g imp bs sub = some r → staticEq g r.2.2) :
    ∀ (imps : List Nat) (g : ModuleGraph) (bs : List Boundary) r,
      importersStep recur ts node chain imps g bs = some r → staticEq g r.2.2 := by
  intro imps
  induction imps with
  | nil =>
    intro g bs r h
    simp only [importersStep, Option.some.injEq] at h
    subst h
    exact staticEq_refl g
  | cons imp rest ih =>
    intro g bs r h
    simp only [importersStep] at h
    split at h
    · exact staticEq_trans (invalidateChain_static ts (chain ++ [imp]) g) (ih _ _ r h)
    · split at h
      · exact ih _ _ r h
      · split at h
        · exact absurd h (by simp)
        · rename_i bs2 g2 hrec
          simp only [Option.some.injEq] at h
          subst h
          exact Hs _ _ _ _ _ hrec
        · rename_i bs2 g2 hrec
          exact staticEq_trans (Hs _ _ _ _ _ hrec) (ih _ _ r h)

/-- Frame property of the propagator: the output graph agrees with the
input graph on node count and on every field other than
`lastHMRTimestamp` and `transformResult`. -/
theorem propagateUpdate_static :
    ∀ (fuel : Nat) (g : ModuleGraph) (ts : Int) (node : Nat) (bs : List Boundary)
      (chain : List Nat) r, propagateUpdate fuel g ts node bs chain = some r →
      staticEq g r.2.2 := by
  intro fuel
  induction fuel with
  | zero =>
    intro g ts node bs chain r h
    exact absurd h (by simp [propagateUpdate])
  | succ fuel ih =>
    intro g ts node bs chain r h
    simp only [propagateUpdate] at h
    split at h
    · simp only [Option.some.injEq] at h
      subst h
      exact invalidateChain_static ts chain g
    · split at h
      · simp only [Option.some.injEq] at h
        subst h
        exact staticEq_refl g
      · exact importersStep_static _ ts node chain
          (fun g2 imp bs2 sub r2 h2 => ih g2 ts imp bs2 sub r2 h2) _ g bs r h

/-- The observable signature of a propagation result: the dead-end verdict
and the boundary list, without the graph. -/
def resultSig : Option (Bool × List Boundary × ModuleGraph) → Option (Bool × List Boundary) :=
  Option.map (fun r => (r.1, r.2.1))

theorem importersStep_congr
    (recur1 recur2 : ModuleGraph → Nat → List Boundary → List Nat →
      Option (Bool × List Boundary × ModuleGraph))
    (ts : Int) (node : Nat) (chain : List Nat)
    (Hs1 : ∀ g imp bs sub r, recur1 g imp bs sub = some r → staticEq g r.2.2)
    (Hs2 : ∀ g imp bs sub r, recur2 g imp bs sub = some r → staticEq g r.2.2)
    (Hc : ∀ g1 g2 imp bs sub, staticEq g1 g2 →
      resultSig (recur1 g1 imp bs sub) = resultSig (recur2 g2 imp bs sub)) :
    ∀ (imps : List Nat) (g1 g2 : ModuleGraph) (bs : List Boundary), staticEq g1 g2 →
      resultSig (importersStep recur1 ts node chain imps g1 bs) =
      resultSig (importersStep recur2 ts node chain imps g2 bs) := by
  intro imps
  induction imps with
  | nil => intro g1 g2 bs _; rfl
  | cons imp rest ih =>
    intro g1 g2 bs hst
    have hacc : ((g1.node imp).acceptedHmrDeps).contains node =
        ((g2.node imp).acceptedHmrDeps).contains node := by
      rw [(hst.2 imp).2.2.2.2.2]
    simp only [importersStep]
    rw [hacc]
    by_cases h1 : ((g2.node imp).acceptedHmrDeps).contains node = true
    · rw [if_pos h1, if_pos h1]
      refine ih _ _ _ ?_
      exact staticEq_trans (staticEq_symm (invalidateChain_static ts (chain ++ [imp]) g1))
        (staticEq_trans hst (invalidateChain_static ts (chain ++ [imp]) g2))
    · rw [if_neg h1, if_neg h1]
      by_cases h2 : chain.contains imp = true
      · rw [if_pos h2, if_pos h2]
        exact ih _ _ _ hst
      · rw [if_neg h2, if_neg h2]
        have hsig := Hc g1 g2 imp bs (chain ++ [imp]) hst
        cases e1 : recur1 g1 imp bs (chain ++ [imp]) with
        | none =>
          cases e2 : recur2 g2 imp bs (chain ++ [imp]) with
          | none => rfl
          | some r2 =>
            rw [e1, e2] at hsig
            exact absurd hsig (by simp [resultSig])
        | some r1 =>
          cases e2 : recur2 g2 imp bs (chain ++ [imp]) with
          | none =>
            rw [e1, e2] at hsig
            exact absurd hsig (by simp [resultSig])
          | some r2 =>
            rw [e1, e2] at hsig
            obtain ⟨b1, bs1, gg1⟩ := r1
            obtain ⟨b2, bs2, gg2⟩ := r2
            simp only [resultSig, Option.map, Option.some.injEq, Prod.mk.injEq] at hsig
            obtain ⟨hb, hbs⟩ := hsig
            subst hb
            subst hbs
            cases b1 with
            | true => rfl
            | false =>
              refine ih _ _ _ ?_
              exact staticEq_trans (staticEq_symm (Hs1 _ _ _ _ _ e1))
                (staticEq_trans hst (Hs2 _ _ _ _ _ e2))

/-- The dead-end verdict and boundary list depend only on the static fields
of the graph: invalidations performed by earlier walks cannot change them. -/
theorem propagateUpdate_congr :
    ∀ (fuel : Nat) (g1 g2 : ModuleGraph) (ts : Int) (node : Nat) (bs : List Boundary)
      (chain : List Nat), staticEq g1 g2 →
      resultSig (propagateUpdate fuel g1 ts node bs chain) =
      resultSig (propagateUpdate fuel g2 ts node bs chain) := by
  intro fuel
  induction fuel with
  | zero => intros; rfl
  | succ fuel ih =>
    intro g1 g2 ts node bs chain hst
    have hsa : (g1.node node).isSelfAccepting = (g2.node node).isSelfAccepting :=
      (hst.2 node).2.2.2.1
    have himp : (g1.node node).importers = (g2.node node).importers :=
      (hst.2 node).2.2.2.2.1
    simp only [propagateUpdate]
    rw [hsa, himp]
    by_cases h1 : (g2.node node).isSelfAccepting = true
    · rw [if_pos h1, if_pos h1]
      simp [resultSig]
    · rw [if_neg h1, if_neg h1]
      by_cases h2 : (g2.node node).importers = []
      · rw [if_pos h2, if_pos h2]
        simp [resultSig]
      · rw [if_neg h2, if_neg h2]
        exact importersStep_congr _ _ ts node chain
          (fun g imp bs2 sub r h => propagateUpdate_static fuel g ts imp bs2 sub r h)
          (fun g imp bs2 sub r h => propagateUpdate_static fuel g ts imp bs2 sub r h)
          (fun ga gb imp bs2 sub hs => ih ga gb ts imp bs2 sub hs)
          ((g2.node node).importers) g1 g2 bs hst

/-! ## Termination of the propagator -/

/-- Well-formed graph: every importer edge stays inside the node set. This
is the invariant the external module-graph component maintains. -/
def WFgraph (g : ModuleGraph) : Prop :=
  ∀ i, i < g.numNodes → ∀ j ∈ (g.node i).importers, j < g.numNodes

theorem WFgraph_staticEq {g h : ModuleGraph} (hst : staticEq g h) (hwf : WFgraph g) :
    WFgraph h := by
  intro i hi j hj
  rw [← hst.1]
  refine hwf i (by rw [hst.1]; exact hi) j ?_
  rw [(hst.2 i).2.2.2.2.1]
  exact hj

theorem nodup_bounded_length_le (N : Nat) (l : List Nat) (hnd : l.Nodup)
    (hlt : ∀ x ∈ l, x < N) : l.length ≤ N := by
  have h1 : l.toFinset.card = l.length := List.toFinset_card_of_nodup hnd
  have h2 : l.toFinset ⊆ Finset.range N := by
    intro x hx
    rw [List.mem_toFinset] at hx
    exact Finset.mem_range.mpr (hlt x hx)
  have h3 := Finset.card_le_card h2
  rw [h1, Finset.card_range] at h3
  exact h3

theorem importersStep_total (ts : Int) (node : Nat) (chain : List Nat) (N : Nat)
    (recur : ModuleGraph → Nat → List Boundary → List Nat →
      Option (Bool × List Boundary × ModuleGraph))
    (Hs : ∀ g imp bs sub r, recur g imp bs sub = some r → staticEq g r.2.2)
    (Hsome : ∀ g imp bs, WFgraph g → g.numNodes = N → imp < N → imp ∉ chain →
      (recur g imp bs (chain ++ [imp])).isSome) :
    ∀ (imps : List Nat) (g : ModuleGraph) (bs : List Boundary), WFgraph g →
      g.numNodes = N → (∀ x ∈ imps, x < N) →
      (importersStep recur ts node chain imps g bs).isSome := by
  intro imps
  induction imps with
  | nil => intro g bs _ _ _; simp [importersStep]
  | cons imp rest ih =>
    intro g bs hwf hN hbd
    have hrest : ∀ x ∈ rest, x < N := fun x hx => hbd x (List.mem_cons_of_mem imp hx)
    simp only [importersStep]
    split
    · have hst := invalidateChain_static ts (chain ++ [imp]) g
      exact ih _ _ (WFgraph_staticEq hst hwf) (by rw [← hst.1]; exact hN) hrest
    · split
      · exact ih _ _ hwf hN hrest
      · rename_i hnacc hnin
        have himp : imp ∉ chain := by
          intro hmem
          exact hnin (by simpa using hmem)
        have hrec := Hsome g imp bs hwf hN (hbd imp (List.mem_cons_self imp rest)) himp
        obtain ⟨r, hr⟩ := Option.isSome_iff_exists.mp hrec
        rw [hr]
        obtain ⟨b, bs2, g2⟩ := r
        cases b with
        | true => simp
        | false =>
          have hst := Hs g imp bs (chain ++ [imp]) _ hr
          exact ih g2 bs2 (WFgraph_staticEq hst hwf) (by rw [← hst.1]; exact hN) hrest

/-- Fuel sufficiency: with fuel `numNodes + 1 - chain.length` (or more) the
embedded propagator never exhausts its fuel on a well-formed graph, because
the chain grows strictly at each recursion and an importer already on the
chain is never recursed into. -/
theorem propagateUpdate_total :
    ∀ (fuel : Nat) (g : ModuleGraph) (ts : Int) (node : Nat) (bs : List Boundary)
      (chain : List Nat), WFgraph g → node < g.numNodes → chain.Nodup →
      (∀ x ∈ chain, x < g.numNodes) → node ∈ chain →
      g.numNodes + 1 ≤ fuel + chain.length →
      (propagateUpdate fuel g ts node bs chain).isSome := by
  intro fuel
  induction fuel with
  | zero =>
    intro g ts node bs chain _ _ hnd hbd _ hfuel
    have := nodup_bounded_length_le g.numNodes chain hnd hbd
    omega
  | succ fuel ih =>
    intro g ts node bs chain hwf hnode hnd hbd hmem hfuel
    simp only [propagateUpdate]
    split
    · simp
    · split
      · simp
      · refine importersStep_total ts node chain g.numNodes _
          (fun g2 imp bs2 sub r h => propagateUpdate_static fuel g2 ts imp bs2 sub r h)
          ?_ ((g.node node).importers) g bs hwf rfl (fun x hx => hwf node hnode x hx)
        intro g2 imp bs2 hwf2 hN2 himpN hnin
        have hnd2 : (chain ++ [imp]).Nodup := by
          rw [List.nodup_append]
          refine ⟨hnd, List.nodup_singleton imp, fun a ha hb => ?_⟩
          rw [List.mem_singleton] at hb
          exact hnin (hb ▸ ha)
        have hbd2 : ∀ x ∈ chain ++ [imp], x < g2.numNodes := by
          intro x hx
          rw [hN2]
          rcases List.mem_append.mp hx with h | h
          · exact hbd x h
          · rw [List.mem_singleton] at h
            exact h ▸ himpN
        refine ih g2 ts imp bs2 (chain ++ [imp]) hwf2 (by rw [hN2]; exact himpN) hnd2 hbd2
          (by simp) ?_
        rw [hN2]
        simp only [List.length_append, List.length_singleton]
        omega

/-- C6: `propagateUpdate` terminates on every finite well-formed module
graph: fuel `numNodes + 1` is always enough for the initial call
`propagateUpdate(node, ts, ∅, [node])`, because an importer already present
in the current chain is never recursed into, so chains never repeat a node. -/
theorem propagateUpdate_terminates (g : ModuleGraph) (ts : Int) (node : Nat)
    (hwf : WFgraph g) (hnode : node < g.numNodes) :
    (propagateUpdate (g.numNodes + 1) g ts node [] [node]).isSome :=
  propagateUpdate_total (g.numNodes + 1) g ts node [] [node] hwf hnode
    (List.nodup_singleton node) (by simpa using hnode) (List.mem_singleton_self node)
    (by simp)

/-- A node record with every field empty, used to build concrete graphs. -/
def defaultNode : ModuleNodeData :=
  { url := "", file := "", type := "", isSelfAccepting := false, importers := [],
    acceptedHmrDeps := [], lastHMRTimestamp := 0, transformResult := none }

/-- The cyclic import graph A→B→C→A (A imports B, B imports C, C imports A),
as reverse `importers` edges. -/
def cyclicGraph : ModuleGraph :=
  { numNodes := 3,
    node := fun i =>
      if i = 0 then { defaultNode with url := "/a", importers := [2] }
      else if i = 1 then { defaultNode with url := "/b", importers := [0] }
      else if i = 2 then { defaultNode with url := "/c", importers := [1] }
      else defaultNode }

/-- Witness for C6: the propagator terminates on the concrete cyclic graph
A→B→C→A when started at A. -/
theorem propagateUpdate_terminates_witness :
    WFgraph cyclicGraph ∧ 0 < cyclicGraph.numNodes ∧
    (propagateUpdate (cyclicGraph.numNodes + 1) cyclicGraph 5 0 [] [0]).isSome :=
  ⟨by unfold WFgraph; decide, by decide,
   propagateUpdate_terminates cyclicGraph 5 0 (by unfold WFgraph; decide) (by decide)⟩

/-! ## Outbound messages and the HmrOrchestrator -/

/-- A primitive JSON value appearing in an update record. -/
inductive JPrim
  | str (s : String)
  | num (n : Int)
deriving DecidableEq

/-- One record of an `update` message, as the literal key/value object built
at hmr.ts lines 89-94 (note the source spells the fourth key
`accpetedPath`). -/
abbrev UpdateRecord := List (String × JPrim)

/-- The messages hmr.ts sends over `ws.send`. -/
inductive Message
  | fullReload (path : Option String)
  | update (updates : List UpdateRecord)
  | prune (paths : List String)
deriving DecidableEq

/-- The object literal pushed for one boundary `(boundary, acceptedVia)`
(hmr.ts lines 85-96). -/
def updateRecordOf (g : ModuleGraph) (ts : Int) (b : Boundary) : UpdateRecord :=
  [("type", JPrim.str ((g.node b.1).type ++ "-update")),
   ("timestamp", JPrim.num ts),
   ("path", JPrim.str (g.node b.1).url),
   ("accpetedPath", JPrim.str (g.node b.2).url)]

/-- JS `String.prototype.endsWith`. -/
def strEndsWith (s suffix : String) : Bool :=
  suffix.toList.isSuffixOf s.toList

/-- JS `String.prototype.startsWith`. -/
def strStartsWith (s pre : String) : Bool :=
  pre.toList.isPrefixOf s.toList

/-- The `for (const plugin of config.plugins)` reduction of hmr.ts lines
59-66: a plugin without a `handleHotUpdate` hook is skipped; otherwise the
awaited result replaces the set unless it is absent (`null`/`undefined`,
i.e. `none` — JS `||` keeps a returned empty array, which is truthy). -/
def filterHotUpdate : List (Option (String → List Nat → Option (List Nat))) → String →
    List Nat → List Nat
  | [], _, mods => mods
  | p :: ps, fileName, mods =>
    match p with
    | none => filterHotUpdate ps fileName mods
    | some hook => filterHotUpdate ps fileName ((hook fileName mods).getD mods)

/-- The per-module loop of `handleHMRUpdate` (hmr.ts lines 71-102): each
module gets a fresh boundary set; a dead end sends one bare `full-reload`
and stops; otherwise the mapped records are appended and, after the loop,
one `update` message is sent. -/
def hmrLoop (ts : Int) : ModuleGraph → List Nat → List UpdateRecord →
    Option (List Message × ModuleGraph)
  | g, [], updates => some ([Message.update updates], g)
  | g, m :: rest, updates =>
    match propagateUpdate (g.numNodes + 1) g ts m [] [m] with
    | none => none
    | some (true, _, g2) => some ([Message.fullReload none], g2)
    | some (false, bs, g2) =>
      hmrLoop ts g2 rest (updates ++ bs.map (updateRecordOf g2 ts))

/-- The context `handleHMRUpdate` reads from the `ViteDevServer`: config
path, root, the client directory constant, the `slash(path.relative(..))`
helper, the ordered plugin hooks, the module-graph lookup, and the graph. -/
structure Server where
  configPath : Option String
  root : String
  clientDir : String
  relSlash : String → String → String
  plugins : List (Option (String → List Nat → Option (List Nat)))
  getModulesByFile : String → Option (List Nat)
  graph : ModuleGraph

/-- `handleHMRUpdate(file, server)` (hmr.ts lines 22-103). The result is
the list of messages sent plus the final graph; `none` only on fuel
exhaustion inside the propagator. -/
def handleHMRUpdate (s : Server) (fileName : String) (ts : Int) :
    Option (List Message × ModuleGraph) :=
  if s.configPath = some fileName then
    some ([], s.graph)
  else if strEndsWith fileName ".env" then
    some ([], s.graph)
  else if strEndsWith fileName ".html" || strStartsWith fileName s.clientDir then
    some ([Message.fullReload (some ("/" ++ s.relSlash s.root fileName))], s.graph)
  else
    match s.getModulesByFile fileName with
    | none => some ([], s.graph)
    | some mods => hmrLoop ts s.graph (filterHotUpdate s.plugins fileName mods) []

/-- The messages sent by one `handleHMRUpdate` run. -/
def hmrMessages (s : Server) (fileName : String) (ts : Int) : Option (List Message) :=
  (handleHMRUpdate s fileName ts).map Prod.fst

/-- One iteration of `handlePrunedModules`' `forEach` (hmr.ts line 166):
only `lastHMRTimestamp` is written. -/
def setStamp (g : ModuleGraph) (m : Nat) (t : Int) : ModuleGraph :=
  { g with node := fun j => if j = m then { g.node j with lastHMRTimestamp := t }
    else g.node j }

/-- `handlePrunedModules(mods, {ws})` (hmr.ts lines 157-173): stamp every
node with one shared timestamp, then send one `prune` message listing the
nodes' urls in iteration order. -/
def handlePrunedModules (g : ModuleGraph) (t : Int) (mods : List Nat) :
    List Message × ModuleGraph :=
  let g2 := mods.foldl (fun acc m => setStamp acc m t) g
  ([Message.prune (mods.map fun m => (g2.node m).url)], g2)

/-- A one-node graph whose only module is self-accepting. -/
def selfAcceptingGraph : ModuleGraph :=
  { numNodes := 1,
    node := fun i =>
      if i = 0 then
        { defaultNode with
          url := "/a.js"
          file := "/p/a.js"
          type := "js"
          isSelfAccepting := true
          transformResult := some 1 }
      else defaultNode }

/-- Witness for C5: on the concrete self-accepting one-node graph the
propagator records exactly `(0, 0)`, returns `false`, and the chain node is
stamped and its cache cleared. -/
theorem propagateUpdate_selfAccepting_witness :
    (selfAcceptingGraph.node 0).isSelfAccepting = true
    ∧ propagateUpdate 1 selfAcceptingGraph 7 0 [] [0] =
        some (false, [(0, 0)], invalidateChain selfAcceptingGraph [0] 7)
    ∧ ((invalidateChain selfAcceptingGraph [0] 7).node 0).lastHMRTimestamp = 7
    ∧ ((invalidateChain selfAcceptingGraph [0] 7).node 0).transformResult = none :=
  ⟨rfl,
   (propagateUpdate_selfAccepting 0 selfAcceptingGraph 7 0 [] [0] rfl).1,
   ((propagateUpdate_selfAccepting 0 selfAcceptingGraph 7 0 [] [0] rfl).2 0
     (List.mem_singleton_self 0)).1,
   ((propagateUpdate_selfAccepting 0 selfAcceptingGraph 7 0 [] [0] rfl).2 0
     (List.mem_singleton_self 0)).2⟩

/-- The graph for C10: node 0 (the changed module) is imported by node 1,
which accepts node 0, and by node 2, which is a dead end (no importers, not
self-accepting). -/
def partialInvalidationGraph : ModuleGraph :=
  { numNodes := 3,
    node := fun i =>
      if i = 0 then
        { defaultNode with
          url := "/x"
          importers := [1, 2]
          transformResult := some 1 }
      else if i = 1 then
        { defaultNode with
          url := "/a"
          acceptedHmrDeps := [0]
          transformResult := some 2 }
      else if i = 2 then { defaultNode with url := "/b", transformResult := some 3 }
      else defaultNode }

/-- C10: invalidation is not rolled back on a dead end. On
`partialInvalidationGraph` the walk from node 0 first succeeds through the
accepting importer 1 (stamping and clearing nodes 0 and 1), then hits the
dead end at importer 2 and returns `true` — yet nodes 0 and 1 keep the new
timestamp and the cleared `transformResult`, although both started with a
different timestamp and a non-empty cache. -/
theorem propagateUpdate_deadEnd_partial_invalidation :
    resultSig (propagateUpdate 4 partialInvalidationGraph 77 0 [] [0]) =
        some (true, [(1, 0)])
    ∧ (propagateUpdate 4 partialInvalidationGraph 77 0 [] [0]).map
        (fun r => ((r.2.2.node 0).lastHMRTimestamp, (r.2.2.node 0).transformResult,
          (r.2.2.node 1).lastHMRTimestamp, (r.2.2.node 1).transformResult)) =
        some (77, none, 77, none)
    ∧ (partialInvalidationGraph.node 0).lastHMRTimestamp = 0
    ∧ (partialInvalidationGraph.node 0).transformResult = some 1
    ∧ (partialInvalidationGraph.node 1).lastHMRTimestamp = 0
    ∧ (partialInvalidationGraph.node 1).transformResult = some 2 := by
  refine ⟨rfl, rfl, rfl, rfl, rfl, rfl⟩

/-- A dev server around `selfAcceptingGraph` with no plugins, whose module
lookup maps the changed file to node 0. -/
def serverA : Server :=
  { configPath := none
    root := "/p"
    clientDir := "/p/client/"
    relSlash := fun _ _ => "a.js"
    plugins := []
    getModulesByFile := fun f => if f = "/p/a.js" then some [0] else none
    graph := selfAcceptingGraph }

/-- C1: on a dead-end-free batch exactly one `update` message is sent and
each record carries the fields type/timestamp/path plus the accepted-path
field — but the source (hmr.ts line 93) spells that key `accpetedPath`, so
no record has a field named `acceptedPath` as the claim and the spec state. -/
theorem update_message_key_spelling :
    hmrMessages serverA "/p/a.js" 42 =
        some [Message.update [[("type", JPrim.str "js-update"),
          ("timestamp", JPrim.num 42), ("path", JPrim.str "/a.js"),
          ("accpetedPath", JPrim.str "/a.js")]]]
    ∧ (updateRecordOf (invalidateChain selfAcceptingGraph [0] 42) 42 (0, 0)).map Prod.fst =
        ["type", "timestamp", "path", "accpetedPath"]
    ∧ "acceptedPath" ∉
        (updateRecordOf (invalidateChain selfAcceptingGraph [0] 42) 42 (0, 0)).map Prod.fst := by
  refine ⟨rfl, rfl, by decide⟩

/-- A hot-update hook that returns no replacement set (JS `undefined`). -/
def absentHook : String → List Nat → Option (List Nat) := fun _ _ => none

/-- A hot-update hook that returns an empty replacement list. -/
def emptyHook : String → List Nat → Option (List Nat) := fun _ _ => some []

/-- Counterexample to C2 as stated: a hook returning the empty list does
change the current module set — JS `||` only falls back on a nullish
result, and an empty array is truthy, so `[] || filteredMods` keeps `[]`. -/
theorem hotUpdate_empty_list_replaces :
    filterHotUpdate [some emptyHook] "f" [0] = [] ∧ ([] : List Nat) ≠ [0] :=
  ⟨rfl, by decide⟩

/-- C2 (amended): hooks run in registration order, each seeing the prior
hook's output (the reduction is a left fold); an absent (`null`/`undefined`)
result leaves the set unchanged, while a returned list — even the empty
list — replaces it. -/
theorem hotUpdate_fold_spec :
    (∀ ps fileName mods, filterHotUpdate ps fileName mods =
      ps.foldl (fun acc p => match p with
        | none => acc
        | some hook => (hook fileName acc).getD acc) mods)
    ∧ (∀ hook ps fileName mods, hook fileName mods = none →
      filterHotUpdate (some hook :: ps) fileName mods = filterHotUpdate ps fileName mods)
    ∧ (∀ hook ps fileName mods l, hook fileName mods = some l →
      filterHotUpdate (some hook :: ps) fileName mods = filterHotUpdate ps fileName l) := by
  refine ⟨?_, ?_, ?_⟩
  · intro ps
    induction ps with
    | nil => intro fileName mods; rfl
    | cons p rest ih =>
      intro fileName mods
      cases p with
      | none => simpa [filterHotUpdate] using ih fileName mods
      | some hook =>
        simpa [filterHotUpdate] using ih fileName ((hook fileName mods).getD mods)
  · intro hook ps fileName mods h
    simp [filterHotUpdate, h]
  · intro hook ps fileName mods l h
    simp [filterHotUpdate, h]

/-- Witness for C2 (amended): an absent result leaves the set unchanged; a
returned empty list replaces it, at concrete inputs. -/
theorem hotUpdate_fold_spec_witness :
    filterHotUpdate [some absentHook] "f" [1] = filterHotUpdate [] "f" [1]
    ∧ filterHotUpdate [some emptyHook] "f" [1] = filterHotUpdate [] "f" [] :=
  ⟨hotUpdate_fold_spec.2.1 absentHook [] "f" [1] rfl,
   hotUpdate_fold_spec.2.2 emptyHook [] "f" [1] [] rfl⟩

theorem stampAll_url (t : Int) :
    ∀ (mods : List Nat) (g : ModuleGraph) (i : Nat),
      ((mods.foldl (fun acc m => setStamp acc m t) g).node i).url = (g.node i).url := by
  intro mods
  induction mods with
  | nil => intro g i; rfl
  | cons m rest ih =>
    intro g i
    have hstep : (m :: rest).foldl (fun acc m2 => setStamp acc m2 t) g
        = rest.foldl (fun acc m2 => setStamp acc m2 t) (setStamp g m t) := rfl
    rw [hstep, ih]
    by_cases h : i = m <;> simp [setStamp, h]

theorem stampAll_not_mem (t : Int) :
    ∀ (mods : List Nat) (g : ModuleGraph) (i : Nat), i ∉ mods →
      (mods.foldl (fun acc m => setStamp acc m t) g).node i = g.node i := by
  intro mods
  induction mods with
  | nil => intro g i _; rfl
  | cons m rest ih =>
    intro g i hi
    have him : i ≠ m := fun h => hi (h ▸ List.mem_cons_self m rest)
    have hirest : i ∉ rest := fun h => hi (List.mem_cons_of_mem m h)
    have hstep : (m :: rest).foldl (fun acc m2 => setStamp acc m2 t) g
        = rest.foldl (fun acc m2 => setStamp acc m2 t) (setStamp g m t) := rfl
    rw [hstep, ih (setStamp g m t) i hirest]
    simp [setStamp, him]

theorem stampAll_mem (t : Int) :
    ∀ (mods : List Nat) (g : ModuleGraph) (i : Nat), i ∈ mods →
      ((mods.foldl (fun acc m => setStamp acc m t) g).node i).lastHMRTimestamp = t := by
  intro mods
  induction mods with
  | nil => intro g i hi; cases hi
  | cons m rest ih =>
    intro g i hi
    have hstep : (m :: rest).foldl (fun acc m2 => setStamp acc m2 t) g
        = rest.foldl (fun acc m2 => setStamp acc m2 t) (setStamp g m t) := rfl
    by_cases hirest : i ∈ rest
    · rw [hstep]; exact ih (setStamp g m t) i hirest
    · have him : i = m := by
        rcases List.mem_cons.mp hi with h | h
        · exact h
        · exact absurd h hirest
      rw [hstep, stampAll_not_mem t rest (setStamp g m t) i hirest]
      simp [setStamp, him]

/-- C7: `handlePrunedModules` stamps every node of the input set with the
one shared timestamp and sends exactly one `prune` message whose path list
is the nodes' urls in the input set's iteration order. -/
theorem handlePrunedModules_spec (g : ModuleGraph) (t : Int) (mods : List Nat) :
    (handlePrunedModules g t mods).1 = [Message.prune (mods.map fun m => (g.node m).url)]
    ∧ ∀ m ∈ mods, (((handlePrunedModules g t mods).2).node m).lastHMRTimestamp = t := by
  constructor
  · simp only [handlePrunedModules]
    have hfun : (fun m => (((mods.foldl (fun acc m2 => setStamp acc m2 t) g)).node m).url)
        = fun m => (g.node m).url := funext fun m => stampAll_url t mods g m
    rw [hfun]
  · intro m hm
    simp only [handlePrunedModules]
    exact stampAll_mem t mods g m hm

/-- Witness for C7 at a concrete graph: the single prune message lists the
node's url and the node is stamped with the shared timestamp. -/
theorem handlePrunedModules_spec_witness :
    (handlePrunedModules selfAcceptingGraph 9 [0]).1 = [Message.prune ["/a.js"]]
    ∧ (((handlePrunedModules selfAcceptingGraph 9 [0]).2).node 0).lastHMRTimestamp = 9 :=
  ⟨(handlePrunedModules_spec selfAcceptingGraph 9 [0]).1.trans (by decide),
   (handlePrunedModules_spec selfAcceptingGraph 9 [0]).2 0 (List.mem_singleton_self 0)⟩

/-- The dead-end verdict of one initial propagator call, as `handleHMRUpdate`
makes it for each module of the batch. -/
def deadEndOf (g : ModuleGraph) (ts : Int) (m : Nat) : Option Bool :=
  (resultSig (propagateUpdate (g.numNodes + 1) g ts m [] [m])).map Prod.fst

theorem hmrLoop_deadEnd (g0 : ModuleGraph) (ts : Int) :
    ∀ (mods : List Nat) (g : ModuleGraph) (updates : List UpdateRecord),
      staticEq g0 g → WFgraph g0 → (∀ m ∈ mods, m < g0.numNodes) →
      (∃ m ∈ mods, deadEndOf g0 ts m = some true) →
      (hmrLoop ts g mods updates).map Prod.fst = some [Message.fullReload none] := by
  intro mods
  induction mods with
  | nil =>
    intro g updates _ _ _ hdead
    obtain ⟨m, hm, _⟩ := hdead
    cases hm
  | cons m rest ih =>
    intro g updates hst hwf hbd hdead
    have hN : g.numNodes = g0.numNodes := hst.1.symm
    have hsig : resultSig (propagateUpdate (g.numNodes + 1) g ts m [] [m]) =
        resultSig (propagateUpdate (g0.numNodes + 1) g0 ts m [] [m]) := by
      rw [hN]
      exact propagateUpdate_congr (g0.numNodes + 1) g g0 ts m [] [m] (staticEq_symm hst)
    have hm0 : m < g0.numNodes := hbd m (List.mem_cons_self m rest)
    have hsome : (propagateUpdate (g.numNodes + 1) g ts m [] [m]).isSome := by
      refine propagateUpdate_total (g.numNodes + 1) g ts m [] [m]
        (WFgraph_staticEq hst hwf) (by omega) (List.nodup_singleton m) ?_
        (List.mem_singleton_self m) (by simp)
      intro x hx
      rw [List.mem_singleton] at hx
      subst hx
      omega
    obtain ⟨r, hr⟩ := Option.isSome_iff_exists.mp hsome
    obtain ⟨b, bs, g2⟩ := r
    simp only [hmrLoop]
    rw [hr]
    cases b with
    | true => rfl
    | false =>
      have hdm : deadEndOf g0 ts m = some false := by
        unfold deadEndOf
        rw [← hsig, hr]
        simp [resultSig]
      obtain ⟨m2, hm2, hdm2⟩ := hdead
      have hm2rest : m2 ∈ rest := by
        rcases List.mem_cons.mp hm2 with h | h
        · subst h
          rw [hdm] at hdm2
          exact absurd hdm2 (by simp)
        · exact h
      exact ih g2 (updates ++ bs.map (updateRecordOf g2 ts))
        (staticEq_trans hst (propagateUpdate_static _ g ts m [] [m] _ hr)) hwf
        (fun x hx => hbd x (List.mem_cons_of_mem m hx)) ⟨m2, hm2rest, hdm2⟩

/-- C4: when the batch reaches `handleHMRUpdate`'s per-module loop and any
module of the (plugin-filtered) batch has a dead-end walk, the orchestrator
sends exactly one bare `full-reload` message (no path) and no `update`
message: boundary records collected for earlier modules are discarded. -/
theorem handleHMRUpdate_deadEnd (s : Server) (fileName : String) (ts : Int)
    (mods : List Nat)
    (hcfg : s.configPath ≠ some fileName)
    (henv : strEndsWith fileName ".env" = false)
    (hhtml : strEndsWith fileName ".html" = false)
    (hclient : strStartsWith fileName s.clientDir = false)
    (hmods : s.getModulesByFile fileName = some mods)
    (hwf : WFgraph s.graph)
    (hbd : ∀ m ∈ filterHotUpdate s.plugins fileName mods, m < s.graph.numNodes)
    (hdead : ∃ m ∈ filterHotUpdate s.plugins fileName mods,
      deadEndOf s.graph ts m = some true) :
    hmrMessages s fileName ts = some [Message.fullReload none] := by
  unfold hmrMessages handleHMRUpdate
  rw [if_neg hcfg, if_neg (by simp [henv]), if_neg (by simp [hhtml, hclient]), hmods]
  exact hmrLoop_deadEnd s.graph ts (filterHotUpdate s.plugins fileName mods) s.graph []
    (staticEq_refl s.graph) hwf hbd hdead

/-- A one-node graph whose module is a dead end: no importers and not
self-accepting. -/
def deadEndGraph : ModuleGraph :=
  { numNodes := 1
    node := fun _ => { defaultNode with url := "/d" } }

/-- A dev server around `deadEndGraph`. -/
def serverD : Server :=
  { configPath := none
    root := "/p"
    clientDir := "/p/client/"
    relSlash := fun _ _ => ""
    plugins := []
    getModulesByFile := fun f => if f = "/p/d.js" then some [0] else none
    graph := deadEndGraph }

/-- Witness for C4: on the concrete dead-end server the run sends exactly
the single bare `full-reload`. -/
theorem handleHMRUpdate_deadEnd_witness :
    deadEndOf serverD.graph 3 0 = some true
    ∧ hmrMessages serverD "/p/d.js" 3 = some [Message.fullReload none] :=
  ⟨rfl,
   handleHMRUpdate_deadEnd serverD "/p/d.js" 3 [0] (by unfold serverD; simp) rfl rfl rfl rfl
     (by unfold WFgraph; decide) (by decide) ⟨0, by decide, rfl⟩⟩

theorem stampAll_static (t : Int) :
    ∀ (mods : List Nat) (g : ModuleGraph),
      staticEq g (mods.foldl (fun acc m => setStamp acc m t) g) := by
  intro mods
  induction mods with
  | nil => intro g; exact staticEq_refl g
  | cons m rest ih =>
    intro g
    refine staticEq_trans ?_ (ih (setStamp g m t))
    refine ⟨rfl, fun i => ?_⟩
    by_cases h : i = m <;> simp [setStamp, h, sameStatic]

theorem hmrLoop_static (ts : Int) :
    ∀ (mods : List Nat) (g : ModuleGraph) (updates : List UpdateRecord) r,
      hmrLoop ts g mods updates = some r → staticEq g r.2 := by
  intro mods
  induction mods with
  | nil =>
    intro g updates r h
    simp only [hmrLoop, Option.some.injEq] at h
    subst h
    exact staticEq_refl g
  | cons m rest ih =>
    intro g updates r h
    simp only [hmrLoop] at h
    cases hp : propagateUpdate (g.numNodes + 1) g ts m [] [m] with
    | none =>
      rw [hp] at h
      exact absurd h (by simp)
    | some r2 =>
      rw [hp] at h
      obtain ⟨b, bs, g2⟩ := r2
      cases b with
      | true =>
        simp only [Option.some.injEq] at h
        subst h
        exact propagateUpdate_static _ g ts m [] [m] _ hp
      | false =>
        exact staticEq_trans (propagateUpdate_static _ g ts m [] [m] _ hp)
          (ih g2 (updates ++ bs.map (updateRecordOf g2 ts)) r h)

/-- C9: every operation of the core — the propagator, the prune handler and
the orchestrator — preserves the node count (never creates or deletes a
node) and every `ModuleNode` field except `lastHMRTimestamp` and
`transformResult` (that is exactly what `staticEq` states). -/
theorem hmr_frame_conditions :
    (∀ fuel g ts node bs chain r, propagateUpdate fuel g ts node bs chain = some r →
      staticEq g r.2.2)
    ∧ (∀ g t mods, staticEq g (handlePrunedModules g t mods).2)
    ∧ (∀ s fileName ts r, handleHMRUpdate s fileName ts = some r → staticEq s.graph r.2) := by
  refine ⟨propagateUpdate_static, ?_, ?_⟩
  · intro g t mods
    exact stampAll_static t mods g
  · intro s fileName ts r h
    unfold handleHMRUpdate at h
    split at h
    · simp only [Option.some.injEq] at h
      subst h
      exact staticEq_refl _
    · split at h
      · simp only [Option.some.injEq] at h
        subst h
        exact staticEq_refl _
      · split at h
        · simp only [Option.some.injEq] at h
          subst h
          exact staticEq_refl _
        · split at h
          · simp only [Option.some.injEq] at h
            subst h
            exact staticEq_refl _
          · exact hmrLoop_static ts _ s.graph [] r h

/-- Witness for C9: the frame conditions instantiated on concrete runs of
the three operations. -/
theorem hmr_frame_conditions_witness :
    staticEq selfAcceptingGraph (invalidateChain selfAcceptingGraph [0] 7)
    ∧ staticEq selfAcceptingGraph (handlePrunedModules selfAcceptingGraph 9 [0]).2
    ∧ staticEq serverD.graph deadEndGraph :=
  ⟨hmr_frame_conditions.1 1 selfAcceptingGraph 7 0 [] [0]
     (false, [(0, 0)], invalidateChain selfAcceptingGraph [0] 7) rfl,
   hmr_frame_conditions.2.1 selfAcceptingGraph 9 [0],
   hmr_frame_conditions.2.2 serverD "/p/d.js" 3 ([Message.fullReload none], deadEndGraph) rfl⟩
